import Mathlib

/-!
Verification of the ordered symbol tables in `algorithms-in-rust`
(`src/symboltables/binarysearchtree.rs` and `src/symboltables/balancedtree.rs`),
via a shallow embedding: `Rc<RefCell<Node>>` links form strict ownership trees
here, so `Link<I> = Option<NodePtr<I>>` becomes an inductive binary tree with a
`nil` constructor for the absent link, and `panic!` branches become `none`.
-/

/-- Tree of nodes of the root-insertion binary search tree
(`binarysearchtree.rs`): each node holds an item and two child links
(`left`, `right`); `nil` is the absent link (`None`). -/
inductive BTree (I : Type) where
  | nil : BTree I
  | node : I → BTree I → BTree I → BTree I
deriving DecidableEq

namespace BTree

variable {I β : Type} [LinearOrder β]

/-- Embedding of `BinarySearchTree::show_r`: in-order traversal pushing items
onto the accumulator `acc` (left subtree, then the item, then right subtree). -/
def show_r : BTree I → List I → List I
  | .nil, acc => acc
  | .node x l r, acc => show_r r (show_r l acc ++ [x])

/-- Plain in-order item sequence, used to reason about `show_r`. -/
def inorder : BTree I → List I
  | .nil => []
  | .node x l r => inorder l ++ x :: inorder r

/-- Embedding of `BinarySearchTree::insert_r`: descend left when the new
item's key is strictly smaller than the node's key, otherwise right (so
items with equal keys go right), and create a node at an absent link. -/
def insert_r (key : I → β) (x : I) : BTree I → BTree I
  | .nil => .node x .nil .nil
  | .node y l r =>
    if key x < key y then .node y (insert_r key x l) r
    else .node y l (insert_r key x r)

/-- Embedding of `BinarySearchTree::do_rotate_right`: when the root `S` and
its left child `E` both exist, `S.left` becomes `E.right` and `E.right`
becomes `S`; in every other case the function returns `None` (here `nil`). -/
def do_rotate_right : BTree I → BTree I
  | .node s (.node e el er) sr => .node e el (.node s er sr)
  | _ => .nil

/-- Embedding of `BinarySearchTree::rotate_right`: overwrites the root link
with the result of `do_rotate_right`, whatever it is. -/
def rotate_right (t : BTree I) : BTree I := do_rotate_right t

/-- Embedding of `BinarySearchTree::do_rotate_left`: mirror image of
`do_rotate_right`. -/
def do_rotate_left : BTree I → BTree I
  | .node a al (.node e el er) => .node e (.node a al el) er
  | _ => .nil

/-- Embedding of `BinarySearchTree::rotate_left`: overwrites the root link
with the result of `do_rotate_left`. -/
def rotate_left (t : BTree I) : BTree I := do_rotate_left t

/-- Embedding of `BinarySearchTree::insert_at_root_r`: insert recursively,
then rotate the inserted child up towards the root. -/
def insert_at_root_r (key : I → β) (x : I) : BTree I → BTree I
  | .nil => .node x .nil .nil
  | .node y l r =>
    if key x < key y then rotate_right (.node y (insert_at_root_r key x l) r)
    else rotate_left (.node y l (insert_at_root_r key x r))

/-- Embedding of `BinarySearchTree::search_r`: three-way comparison of the
query key against the node's key. -/
def search_r (key : I → β) : BTree I → β → Option I
  | .nil, _ => none
  | .node y l r, k =>
    if k < key y then search_r key l k
    else if k = key y then some y
    else search_r key r k

/-- BST ordering invariant maintained by this engine: items in the left
subtree have keys strictly below the node's key and items in the right
subtree have keys at or above it (`insert_r` sends equal keys right). -/
def SearchTree (key : I → β) : BTree I → Prop
  | .nil => True
  | .node x l r =>
    (∀ i ∈ inorder l, key i < key x) ∧ (∀ i ∈ inorder r, key x ≤ key i) ∧
      SearchTree key l ∧ SearchTree key r

/-- Strict form of the invariant: both subtrees' keys strictly separated
from the node's key; holds when no duplicate keys were ever inserted. -/
def StrictSearchTree (key : I → β) : BTree I → Prop
  | .nil => True
  | .node x l r =>
    (∀ i ∈ inorder l, key i < key x) ∧ (∀ i ∈ inorder r, key x < key i) ∧
      StrictSearchTree key l ∧ StrictSearchTree key r

/-- Modelled from the spec's words "inserted in its sorted position": place
`x` immediately before the first element whose key is strictly greater than
the key of `x` (matching the engine's convention of sending ties right). -/
def insertIntoSorted (key : I → β) (x : I) : List I → List I
  | [] => [x]
  | y :: l => if key x < key y then x :: y :: l else y :: insertIntoSorted key x l

end BTree

/-- Embedding of the `BinarySearchTree` struct: a root link `head` and the
`count` field that `insert` increments. -/
structure BinarySearchTree (I : Type) where
  head : BTree I
  count : Nat

namespace BinarySearchTree

variable {I β : Type} [LinearOrder β]

/-- Embedding of `BinarySearchTree::new` and `Default`. -/
def new (I : Type) : BinarySearchTree I := ⟨.nil, 0⟩

/-- Embedding of `SymbolTable::insert` for `BinarySearchTree`: recursive
insertion followed by `self.count += 1`. -/
def insert (key : I → β) (s : BinarySearchTree I) (x : I) : BinarySearchTree I :=
  { head := BTree.insert_r key x s.head, count := s.count + 1 }

/-- Embedding of `BinarySearchTree::insert_at_root`: root insertion; the
`count` field is not touched. -/
def insert_at_root (key : I → β) (s : BinarySearchTree I) (x : I) :
    BinarySearchTree I :=
  { head := BTree.insert_at_root_r key x s.head, count := s.count }

/-- Embedding of `SymbolTable::show` for `BinarySearchTree`: in-order
traversal of `head` into an empty accumulator. -/
def showItems (s : BinarySearchTree I) : List I := BTree.show_r s.head []

/-- Table obtained from the empty table by a sequence of `insert` calls. -/
def buildInsert (key : I → β) (items : List I) : BinarySearchTree I :=
  items.foldl (fun s x => s.insert key x) (new I)

end BinarySearchTree

/-- Tree of nodes of the size-augmented binary search tree
(`balancedtree.rs`): each node holds a key, a value, the subtree node count
`n`, and two child links; `nil` is the absent link (`None`). -/
inductive BTreeKV (K V : Type) where
  | nil : BTreeKV K V
  | node : K → V → Nat → BTreeKV K V → BTreeKV K V → BTreeKV K V
deriving DecidableEq

namespace BTreeKV

variable {K V : Type} [LinearOrder K]

/-- Embedding of `BalancedTree::_size`: read the stored `n` field, 0 for an
absent link. -/
def _size : BTreeKV K V → Nat
  | .nil => 0
  | .node _ _ n _ _ => n

/-- Actual number of nodes in the tree, used to state the size invariant. -/
def realSize : BTreeKV K V → Nat
  | .nil => 0
  | .node _ _ _ l r => realSize l + realSize r + 1

/-- Embedding of `BalancedTree::keys_r`: in-order traversal pushing keys
onto the accumulator `acc`. -/
def keys_r : BTreeKV K V → List K → List K
  | .nil, acc => acc
  | .node x _ _ l r, acc => keys_r r (keys_r l acc ++ [x])

/-- Plain in-order key sequence, used to reason about `keys_r`. -/
def keysList : BTreeKV K V → List K
  | .nil => []
  | .node x _ _ l r => keysList l ++ x :: keysList r

/-- Embedding of `BalancedTree::get_r`: three-way comparison descent
(`Less` goes left, `Equal` returns the value, `Greater` goes right). -/
def get_r : BTreeKV K V → K → Option V
  | .nil, _ => none
  | .node x v _ l r, k =>
    if k < x then get_r l k
    else if k = x then some v
    else get_r r k

/-- Embedding of `BalancedTree::put_r` together with the `compares_put`
counter it threads through (`*compares_put += 1` once per node visited):
returns the updated tree and counter.  On `Equal` the value is overwritten
in place; in every case `n` is recomputed from the children after the
recursive call. -/
def put_r : BTreeKV K V → K → V → Nat → BTreeKV K V × Nat
  | .nil, k, v, c => (.node k v 1 .nil .nil, c)
  | .node x xv _ l r, k, v, c =>
    if k < x then
      let p := put_r l k v (c + 1)
      (.node x xv (_size p.1 + _size r + 1) p.1 r, p.2)
    else if k = x then
      (.node x v (_size l + _size r + 1) l r, c + 1)
    else
      let p := put_r r k v (c + 1)
      (.node x xv (_size l + _size p.1 + 1) l p.1, p.2)

/-- Embedding of `BalancedTree::floor_r`: on `Less` recurse left only; on
`Greater` recurse right and fall back to the current key when the right
recursion finds nothing; on `Equal` return the current key. -/
def floor_r : BTreeKV K V → K → Option K
  | .nil, _ => none
  | .node x _ _ l r, k =>
    if k < x then floor_r l k
    else if k = x then some x
    else
      match floor_r r k with
      | some s => some s
      | none => some x

/-- Embedding of `BalancedTree::ceiling_r`: mirror image of `floor_r`. -/
def ceiling_r : BTreeKV K V → K → Option K
  | .nil, _ => none
  | .node x _ _ l r, k =>
    if k < x then
      match ceiling_r l k with
      | some s => some s
      | none => some x
    else if k = x then some x
    else ceiling_r r k

/-- Embedding of `BalancedTree::min_r`: follow left links until absent;
the `panic!("Empty tree")` branch on the empty table is modelled as
`none`. -/
def min_r : BTreeKV K V → Option K
  | .nil => none
  | .node x _ _ l _ =>
    match l with
    | .nil => some x
    | .node .. => min_r l

/-- Embedding of `BalancedTree::max_r`: follow right links until absent;
the `panic!("Empty tree")` branch on the empty table is modelled as
`none`. -/
def max_r : BTreeKV K V → Option K
  | .nil => none
  | .node x _ _ _ r =>
    match r with
    | .nil => some x
    | .node .. => max_r r

/-- Modelled from the spec: `BalancedTree::select` is left `todo!()` in the
source, and the spec (section 4.1) fixes the algorithm: compare the rank `k`
with the left subtree size `t`; equal returns the node's key, smaller
recurses left with `k`, larger recurses right with `k - t - 1`; the
out-of-range condition surfaces as `none`. -/
def select_r : BTreeKV K V → Nat → Option K
  | .nil, _ => none
  | .node x _ _ l r, k =>
    if k = _size l then some x
    else if k < _size l then select_r l k
    else select_r r (k - _size l - 1)

/-- Modelled from the spec: `BalancedTree::rank` is left `todo!()` in the
source, and the spec (section 4.1) fixes the algorithm: smaller keys recurse
left, equal returns `size(left)`, larger returns `size(left) + 1` plus the
rank within the right subtree. -/
def rank_r : BTreeKV K V → K → Nat
  | .nil, _ => 0
  | .node x _ _ l r, k =>
    if k < x then rank_r l k
    else if k = x then _size l
    else _size l + 1 + rank_r r k

/-- BST ordering invariant of the sized map: keys in the left subtree are
strictly below the node's key and keys in the right subtree strictly
above. -/
def isBST : BTreeKV K V → Prop
  | .nil => True
  | .node x _ _ l r =>
    (∀ k ∈ keysList l, k < x) ∧ (∀ k ∈ keysList r, x < k) ∧ isBST l ∧ isBST r

/-- Size invariant of the sized map: every node's `n` field equals
`1 + _size left + _size right`. -/
def sizeOk : BTreeKV K V → Prop
  | .nil => True
  | .node _ _ n l r => n = _size l + _size r + 1 ∧ sizeOk l ∧ sizeOk r

end BTreeKV

/-- Embedding of the `BalancedTree` struct: the root link and the
`compares_put` diagnostic counter. -/
structure BalancedTree (K V : Type) where
  root : BTreeKV K V
  compares_put : Nat

namespace BalancedTree

variable {K V : Type} [LinearOrder K]

/-- Embedding of `BalancedTree::new` and `Default`. -/
def new (K V : Type) : BalancedTree K V := ⟨.nil, 0⟩

/-- Embedding of `BalancedTree::put`: delegate to `put_r` on the root,
updating both the root and the comparison counter. -/
def put (s : BalancedTree K V) (k : K) (v : V) : BalancedTree K V :=
  let p := BTreeKV.put_r s.root k v s.compares_put
  ⟨p.1, p.2⟩

/-- Embedding of `BalancedTree::get`. -/
def get (s : BalancedTree K V) (k : K) : Option V := BTreeKV.get_r s.root k

/-- Embedding of `BalancedTree::contains`. -/
def contains (s : BalancedTree K V) (k : K) : Bool := (s.get k).isSome

/-- Embedding of `BalancedTree::size`: `_size` of the root, an O(1) read of
the root's `n` field. -/
def size (s : BalancedTree K V) : Nat := BTreeKV._size s.root

/-- Embedding of `BalancedTree::keys`: `keys_r` into an empty vector. -/
def keys (s : BalancedTree K V) : List K := BTreeKV.keys_r s.root []

/-- Embedding of `BalancedTree::floor`. -/
def floor (s : BalancedTree K V) (k : K) : Option K := BTreeKV.floor_r s.root k

/-- Embedding of `BalancedTree::ceiling`. -/
def ceiling (s : BalancedTree K V) (k : K) : Option K := BTreeKV.ceiling_r s.root k

/-- Embedding of `BalancedTree::min`; `none` models the panic on an empty
table. -/
def min (s : BalancedTree K V) : Option K := BTreeKV.min_r s.root

/-- Embedding of `BalancedTree::max`; `none` models the panic on an empty
table. -/
def max (s : BalancedTree K V) : Option K := BTreeKV.max_r s.root

/-- Modelled from the spec: struct-level `select`, delegating to
`select_r` (the source body is `todo!()`). -/
def select (s : BalancedTree K V) (k : Nat) : Option K := BTreeKV.select_r s.root k

/-- Modelled from the spec: struct-level `rank`, delegating to `rank_r`
(the source body is `todo!()`). -/
def rank (s : BalancedTree K V) (k : K) : Nat := BTreeKV.rank_r s.root k

/-- Table obtained from the empty table by a sequence of `put` calls. -/
def buildPut (ps : List (K × V)) : BalancedTree K V :=
  ps.foldl (fun s p => s.put p.1 p.2) (new K V)

end BalancedTree

namespace BTree

variable {I β : Type} [LinearOrder β]

theorem show_r_eq (t : BTree I) : ∀ acc, show_r t acc = acc ++ inorder t := by
  induction t with
  | nil => intro acc; simp [show_r, inorder]
  | node x l r ihl ihr => intro acc; simp [show_r, inorder, ihl, ihr]

theorem mem_inorder_insert_r (key : I → β) (x i : I) (t : BTree I) :
    i ∈ inorder (insert_r key x t) ↔ i = x ∨ i ∈ inorder t := by
  induction t with
  | nil => simp [insert_r, inorder]
  | node y l r ihl ihr =>
    by_cases h : key x < key y <;> simp [insert_r, h, inorder, ihl, ihr] <;> tauto

theorem searchTree_insert_r (key : I → β) (x : I) (t : BTree I)
    (h : SearchTree key t) : SearchTree key (insert_r key x t) := by
  induction t with
  | nil => simp [insert_r, SearchTree, inorder]
  | node y l r ihl ihr =>
    obtain ⟨hl, hr, hsl, hsr⟩ := h
    by_cases hxy : key x < key y
    · simp only [insert_r, if_pos hxy, SearchTree]
      refine ⟨?_, hr, ihl hsl, hsr⟩
      intro i hi
      rcases (mem_inorder_insert_r key x i l).1 hi with h1 | h1
      · simpa [h1] using hxy
      · exact hl i h1
    · simp only [insert_r, if_neg hxy, SearchTree]
      refine ⟨hl, ?_, hsl, ihr hsr⟩
      intro i hi
      rcases (mem_inorder_insert_r key x i r).1 hi with h1 | h1
      · simpa [h1] using le_of_not_lt hxy
      · exact hr i h1

theorem insertIntoSorted_append_gt (key : I → β) (x b : I) (c : List I)
    (hb : key x < key b) :
    ∀ a : List I,
      insertIntoSorted key x (a ++ b :: c) = insertIntoSorted key x a ++ b :: c := by
  intro a
  induction a with
  | nil => simp [insertIntoSorted, hb]
  | cons y a ih =>
    by_cases h : key x < key y <;> simp [insertIntoSorted, h, ih]

theorem insertIntoSorted_append_le (key : I → β) (x : I) (l2 : List I) :
    ∀ l1 : List I, (∀ a ∈ l1, ¬ key x < key a) →
      insertIntoSorted key x (l1 ++ l2) = l1 ++ insertIntoSorted key x l2 := by
  intro l1
  induction l1 with
  | nil => simp
  | cons y l ih =>
    intro h
    have hy : ¬ key x < key y := h y (by simp)
    simp only [List.cons_append, insertIntoSorted, if_neg hy]
    show y :: insertIntoSorted key x (l ++ l2) = y :: (l ++ insertIntoSorted key x l2)
    rw [ih (fun a ha => h a (by simp [ha]))]

theorem inorder_insert_r (key : I → β) (x : I) (t : BTree I)
    (h : SearchTree key t) :
    inorder (insert_r key x t) = insertIntoSorted key x (inorder t) := by
  induction t with
  | nil => simp [insert_r, inorder, insertIntoSorted]
  | node y l r ihl ihr =>
    obtain ⟨hl, hr, hsl, hsr⟩ := h
    by_cases hxy : key x < key y
    · simp only [insert_r, if_pos hxy, inorder]
      rw [ihl hsl, insertIntoSorted_append_gt key x y (inorder r) hxy]
    · simp only [insert_r, if_neg hxy, inorder]
      rw [ihr hsr,
        show inorder l ++ y :: inorder r = (inorder l ++ [y]) ++ inorder r by simp,
        show inorder l ++ y :: insertIntoSorted key x (inorder r)
            = (inorder l ++ [y]) ++ insertIntoSorted key x (inorder r) by simp,
        insertIntoSorted_append_le key x (inorder r) (inorder l ++ [y])]
      intro a ha
      rcases List.mem_append.1 ha with h1 | h1
      · exact fun hc => hxy (lt_trans hc (hl a h1))
      · simp only [List.mem_singleton] at h1
        subst h1; exact hxy

theorem insert_at_root_r_node (key : I → β) (x : I) (t : BTree I) :
    ∃ a b, insert_at_root_r key x t = .node x a b := by
  induction t with
  | nil => exact ⟨.nil, .nil, rfl⟩
  | node y l r ihl ihr =>
    by_cases hxy : key x < key y
    · obtain ⟨a, b, hab⟩ := ihl
      exact ⟨a, .node y b r, by
        simp [insert_at_root_r, if_pos hxy, hab, rotate_right, do_rotate_right]⟩
    · obtain ⟨a, b, hab⟩ := ihr
      exact ⟨.node y l a, b, by
        simp [insert_at_root_r, if_neg hxy, hab, rotate_left, do_rotate_left]⟩

theorem inorder_insert_at_root_r (key : I → β) (x : I) (t : BTree I) :
    inorder (insert_at_root_r key x t) = inorder (insert_r key x t) := by
  induction t with
  | nil => rfl
  | node y l r ihl ihr =>
    by_cases hxy : key x < key y
    · obtain ⟨a, b, hab⟩ := insert_at_root_r_node key x l
      simp only [insert_at_root_r, if_pos hxy, insert_r, hab,
        rotate_right, do_rotate_right, inorder]
      have := ihl
      rw [hab] at this
      simp only [inorder] at this
      simp [← this]
    · obtain ⟨a, b, hab⟩ := insert_at_root_r_node key x r
      simp only [insert_at_root_r, if_neg hxy, insert_r, hab,
        rotate_left, do_rotate_left, inorder]
      have := ihr
      rw [hab] at this
      simp only [inorder] at this
      simp [← this]

theorem length_inorder_insert_r (key : I → β) (x : I) (t : BTree I) :
    (inorder (insert_r key x t)).length = (inorder t).length + 1 := by
  induction t with
  | nil => rfl
  | node y l r ihl ihr =>
    by_cases hxy : key x < key y <;>
      simp [insert_r, hxy, inorder, ihl, ihr] <;> omega

theorem mem_insertIntoSorted (key : I → β) (x i : I) (l : List I) :
    i ∈ insertIntoSorted key x l ↔ i = x ∨ i ∈ l := by
  induction l with
  | nil => simp [insertIntoSorted]
  | cons y l ih =>
    by_cases h : key x < key y <;> simp [insertIntoSorted, h, ih] <;> tauto

theorem sorted_le_insertIntoSorted (key : I → β) (x : I) (l : List I)
    (h : (l.map key).Sorted (· ≤ ·)) :
    ((insertIntoSorted key x l).map key).Sorted (· ≤ ·) := by
  induction l with
  | nil => simp [insertIntoSorted]
  | cons y l ih =>
    simp only [List.map_cons, List.sorted_cons] at h
    obtain ⟨hy, hl⟩ := h
    by_cases hxy : key x < key y
    · simp only [insertIntoSorted, if_pos hxy, List.map_cons, List.sorted_cons]
      refine ⟨?_, ?_⟩
      · intro b hb
        simp only [List.map_cons, List.mem_cons] at hb
        rcases hb with hb | hb
        · exact le_of_lt (by simpa [hb] using hxy)
        · exact le_of_lt (lt_of_lt_of_le hxy (hy b hb))
      · exact ⟨hy, hl⟩
    · simp only [insertIntoSorted, if_neg hxy, List.map_cons, List.sorted_cons]
      refine ⟨?_, ih hl⟩
      intro b hb
      simp only [List.mem_map] at hb
      obtain ⟨i, hi, rfl⟩ := hb
      rcases (mem_insertIntoSorted key x i l).1 hi with rfl | hi
      · exact le_of_not_lt hxy
      · exact hy (key i) (List.mem_map_of_mem key hi)

theorem searchTree_sorted_le (key : I → β) (t : BTree I)
    (h : SearchTree key t) : ((inorder t).map key).Sorted (· ≤ ·) := by
  induction t with
  | nil => simp [inorder]
  | node y l r ihl ihr =>
    obtain ⟨hl, hr, hsl, hsr⟩ := h
    simp only [inorder, List.map_append, List.map_cons, List.Sorted,
      List.pairwise_append, List.pairwise_cons]
    refine ⟨(ihl hsl), ⟨?_, (ihr hsr)⟩, ?_⟩
    · intro b hb
      simp only [List.mem_map] at hb
      obtain ⟨i, hi, rfl⟩ := hb
      exact hr i hi
    · intro a ha b hb
      simp only [List.mem_map] at ha
      obtain ⟨i, hi, rfl⟩ := ha
      simp only [List.mem_cons, List.mem_map] at hb
      rcases hb with rfl | ⟨j, hj, rfl⟩
      · exact le_of_lt (hl i hi)
      · exact le_of_lt (lt_of_lt_of_le (hl i hi) (hr j hj))

theorem strictSearchTree_sorted_lt (key : I → β) (t : BTree I)
    (h : StrictSearchTree key t) : ((inorder t).map key).Sorted (· < ·) := by
  induction t with
  | nil => simp [inorder]
  | node y l r ihl ihr =>
    obtain ⟨hl, hr, hsl, hsr⟩ := h
    simp only [inorder, List.map_append, List.map_cons, List.Sorted,
      List.pairwise_append, List.pairwise_cons]
    refine ⟨(ihl hsl), ⟨?_, (ihr hsr)⟩, ?_⟩
    · intro b hb
      simp only [List.mem_map] at hb
      obtain ⟨i, hi, rfl⟩ := hb
      exact hr i hi
    · intro a ha b hb
      simp only [List.mem_map] at ha
      obtain ⟨i, hi, rfl⟩ := ha
      simp only [List.mem_cons, List.mem_map] at hb
      rcases hb with rfl | ⟨j, hj, rfl⟩
      · exact hl i hi
      · exact lt_trans (hl i hi) (hr j hj)

theorem strictSearchTree_insert_r (key : I → β) (x : I) (t : BTree I)
    (h : StrictSearchTree key t) (hx : ∀ i ∈ inorder t, key x ≠ key i) :
    StrictSearchTree key (insert_r key x t) := by
  induction t with
  | nil => simp [insert_r, StrictSearchTree, inorder]
  | node y l r ihl ihr =>
    obtain ⟨hl, hr, hsl, hsr⟩ := h
    have hxy' : key x ≠ key y := hx y (by simp [inorder])
    by_cases hxy : key x < key y
    · simp only [insert_r, if_pos hxy, StrictSearchTree]
      refine ⟨?_, hr, ihl hsl (fun i hi => hx i (by simp [inorder, hi])), hsr⟩
      intro i hi
      rcases (mem_inorder_insert_r key x i l).1 hi with h1 | h1
      · simpa [h1] using hxy
      · exact hl i h1
    · simp only [insert_r, if_neg hxy, StrictSearchTree]
      refine ⟨hl, ?_, hsl, ihr hsr (fun i hi => hx i (by simp [inorder, hi]))⟩
      intro i hi
      rcases (mem_inorder_insert_r key x i r).1 hi with h1 | h1
      · subst h1
        exact lt_of_le_of_ne (le_of_not_lt hxy) (Ne.symm hxy')
      · exact hr i h1

theorem insertIntoSorted_perm (key : I → β) (x : I) (l : List I) :
    (insertIntoSorted key x l).Perm (x :: l) := by
  induction l with
  | nil => simp [insertIntoSorted]
  | cons y l ih =>
    by_cases h : key x < key y
    · simp [insertIntoSorted, h]
    · simp only [insertIntoSorted, if_neg h]
      exact (ih.cons y).trans (List.Perm.swap x y l)

end BTree

namespace BinarySearchTree

variable {I β : Type} [LinearOrder β]

theorem buildInsert_cons (key : I → β) (x : I) (items : List I) :
    ∀ s : BinarySearchTree I,
      (x :: items).foldl (fun s x => s.insert key x) s
        = items.foldl (fun s x => s.insert key x) (s.insert key x) := by
  intro s; rfl

theorem searchTree_foldl (key : I → β) (items : List I) :
    ∀ s : BinarySearchTree I, BTree.SearchTree key s.head →
      BTree.SearchTree key (items.foldl (fun s x => s.insert key x) s).head := by
  induction items with
  | nil => intro s hs; simpa using hs
  | cons x items ih =>
    intro s hs
    exact ih (s.insert key x) (BTree.searchTree_insert_r key x s.head hs)

theorem searchTree_buildInsert (key : I → β) (items : List I) :
    BTree.SearchTree key (buildInsert key items).head :=
  searchTree_foldl key items (new I) trivial

theorem mem_inorder_foldl (key : I → β) (items : List I) :
    ∀ (s : BinarySearchTree I) (i : I),
      i ∈ BTree.inorder (items.foldl (fun s x => s.insert key x) s).head ↔
        i ∈ BTree.inorder s.head ∨ i ∈ items := by
  induction items with
  | nil => intro s i; simp
  | cons x items ih =>
    intro s i
    rw [buildInsert_cons, ih (s.insert key x) i]
    show i ∈ BTree.inorder (BTree.insert_r key x s.head) ∨ _ ↔ _
    rw [BTree.mem_inorder_insert_r]
    simp
    tauto

theorem strictSearchTree_foldl (key : I → β) (items : List I) :
    ∀ s : BinarySearchTree I, BTree.StrictSearchTree key s.head →
      (∀ y ∈ items, ∀ i ∈ BTree.inorder s.head, key y ≠ key i) →
      (items.map key).Nodup →
      BTree.StrictSearchTree key
        (items.foldl (fun s x => s.insert key x) s).head := by
  induction items with
  | nil => intro s hs _ _; simpa using hs
  | cons x items ih =>
    intro s hs hdisj hnd
    rw [buildInsert_cons]
    have hx : ∀ i ∈ BTree.inorder s.head, key x ≠ key i :=
      fun i hi => hdisj x (by simp) i hi
    have hs' : BTree.StrictSearchTree key (s.insert key x).head :=
      BTree.strictSearchTree_insert_r key x s.head hs hx
    have hnd' : (items.map key).Nodup := by
      simp only [List.map_cons, List.nodup_cons] at hnd
      exact hnd.2
    refine ih (s.insert key x) hs' ?_ hnd'
    intro y hy i hi
    show key y ≠ key i
    have hi' : i ∈ BTree.inorder (BTree.insert_r key x s.head) := hi
    rcases (BTree.mem_inorder_insert_r key x i s.head).1 hi' with rfl | hi2
    · simp only [List.map_cons, List.nodup_cons] at hnd
      intro hc
      exact hnd.1 (hc ▸ List.mem_map_of_mem key hy)
    · exact hdisj y (by simp [hy]) i hi2

theorem strictSearchTree_buildInsert (key : I → β) (items : List I)
    (hnd : (items.map key).Nodup) :
    BTree.StrictSearchTree key (buildInsert key items).head := by
  refine strictSearchTree_foldl key items (new I) trivial ?_ hnd
  intro y _ i hi
  simp [new, BTree.inorder] at hi

end BinarySearchTree


namespace BTreeKV

variable {K V : Type} [LinearOrder K]

theorem keys_r_eq (t : BTreeKV K V) : ∀ acc, keys_r t acc = acc ++ keysList t := by
  induction t with
  | nil => intro acc; simp [keys_r, keysList]
  | node x v n l r ihl ihr => intro acc; simp [keys_r, keysList, ihl, ihr]

theorem _size_eq_realSize (t : BTreeKV K V) (h : sizeOk t) :
    _size t = realSize t := by
  induction t with
  | nil => rfl
  | node x v n l r ihl ihr =>
    obtain ⟨hn, hl, hr⟩ := h
    show n = realSize (node x v n l r)
    rw [hn, ihl hl, ihr hr]
    rfl

theorem mem_keysList_put (t : BTreeKV K V) (k k' : K) (v : V) :
    ∀ c, k' ∈ keysList (put_r t k v c).1 ↔ k' = k ∨ k' ∈ keysList t := by
  induction t with
  | nil => intro c; simp [put_r, keysList]
  | node x xv xn l r ihl ihr =>
    intro c
    rcases lt_trichotomy k x with h | h | h
    · simp only [put_r, if_pos h]
      simp [keysList, ihl (c + 1)]
      tauto
    · subst h
      simp only [put_r, if_neg (lt_irrefl k), if_pos rfl]
      simp [keysList]
      tauto
    · simp only [put_r, if_neg (not_lt.2 (le_of_lt h)), if_neg (ne_of_gt h)]
      simp [keysList, ihr (c + 1)]
      tauto

theorem isBST_put (t : BTreeKV K V) (k : K) (v : V) (h : isBST t) :
    ∀ c, isBST (put_r t k v c).1 := by
  induction t with
  | nil => intro c; simp [put_r, isBST, keysList]
  | node x xv xn l r ihl ihr =>
    intro c
    obtain ⟨hl, hr, hbl, hbr⟩ := h
    rcases lt_trichotomy k x with hkx | hkx | hkx
    · simp only [put_r, if_pos hkx]
      refine ⟨?_, hr, ihl hbl (c + 1), hbr⟩
      intro a ha
      rcases (mem_keysList_put l k a v (c + 1)).1 ha with rfl | ha
      · exact hkx
      · exact hl a ha
    · subst hkx
      simp only [put_r, if_neg (lt_irrefl k), if_pos rfl]
      exact ⟨hl, hr, hbl, hbr⟩
    · simp only [put_r, if_neg (not_lt.2 (le_of_lt hkx)), if_neg (ne_of_gt hkx)]
      refine ⟨hl, ?_, hbl, ihr hbr (c + 1)⟩
      intro a ha
      rcases (mem_keysList_put r k a v (c + 1)).1 ha with rfl | ha
      · exact hkx
      · exact hr a ha

theorem sizeOk_put (t : BTreeKV K V) (k : K) (v : V) (h : sizeOk t) :
    ∀ c, sizeOk (put_r t k v c).1 := by
  induction t with
  | nil => intro c; simp [put_r, sizeOk, _size]
  | node x xv xn l r ihl ihr =>
    intro c
    obtain ⟨hn, hl, hr⟩ := h
    rcases lt_trichotomy k x with hkx | hkx | hkx
    · simp only [put_r, if_pos hkx]
      exact ⟨rfl, ihl hl (c + 1), hr⟩
    · subst hkx
      simp only [put_r, if_neg (lt_irrefl k), if_pos rfl]
      exact ⟨rfl, hl, hr⟩
    · simp only [put_r, if_neg (not_lt.2 (le_of_lt hkx)), if_neg (ne_of_gt hkx)]
      exact ⟨rfl, hl, ihr hr (c + 1)⟩

theorem get_put_same (t : BTreeKV K V) (k : K) (v : V) :
    ∀ c, get_r (put_r t k v c).1 k = some v := by
  induction t with
  | nil => intro c; simp [put_r, get_r]
  | node x xv xn l r ihl ihr =>
    intro c
    rcases lt_trichotomy k x with hkx | hkx | hkx
    · simp only [put_r, if_pos hkx]
      simp [get_r, hkx, ihl (c + 1)]
    · subst hkx
      simp only [put_r, if_neg (lt_irrefl k), if_pos rfl]
      simp [get_r]
    · simp only [put_r, if_neg (not_lt.2 (le_of_lt hkx)), if_neg (ne_of_gt hkx)]
      simp [get_r, not_lt.2 (le_of_lt hkx), ne_of_gt hkx, ihr (c + 1)]

theorem realSize_put_of_get_some (t : BTreeKV K V) (k : K) (v : V)
    (h : (get_r t k).isSome) :
    ∀ c, realSize (put_r t k v c).1 = realSize t := by
  induction t with
  | nil => simp [get_r] at h
  | node x xv xn l r ihl ihr =>
    intro c
    rcases lt_trichotomy k x with hkx | hkx | hkx
    · simp only [get_r, if_pos hkx] at h
      simp only [put_r, if_pos hkx]
      simp [realSize, ihl h (c + 1)]
    · subst hkx
      simp only [put_r, if_neg (lt_irrefl k), if_pos rfl]
      simp [realSize]
    · simp only [get_r, if_neg (not_lt.2 (le_of_lt hkx)), if_neg (ne_of_gt hkx)] at h
      simp only [put_r, if_neg (not_lt.2 (le_of_lt hkx)), if_neg (ne_of_gt hkx)]
      simp [realSize, ihr h (c + 1)]

theorem realSize_put_of_get_none (t : BTreeKV K V) (k : K) (v : V)
    (h : get_r t k = none) :
    ∀ c, realSize (put_r t k v c).1 = realSize t + 1 := by
  induction t with
  | nil => intro c; simp [put_r, realSize]
  | node x xv xn l r ihl ihr =>
    intro c
    rcases lt_trichotomy k x with hkx | hkx | hkx
    · simp only [get_r, if_pos hkx] at h
      simp only [put_r, if_pos hkx]
      simp [realSize, ihl h (c + 1)]
      omega
    · subst hkx
      simp [get_r, lt_irrefl] at h
    · simp only [get_r, if_neg (not_lt.2 (le_of_lt hkx)), if_neg (ne_of_gt hkx)] at h
      simp only [put_r, if_neg (not_lt.2 (le_of_lt hkx)), if_neg (ne_of_gt hkx)]
      simp [realSize, ihr h (c + 1)]
      omega

theorem get_isSome_iff_mem (t : BTreeKV K V) (k : K) (h : isBST t) :
    (get_r t k).isSome ↔ k ∈ keysList t := by
  induction t with
  | nil => simp [get_r, keysList]
  | node x xv xn l r ihl ihr =>
    obtain ⟨hl, hr, hbl, hbr⟩ := h
    rcases lt_trichotomy k x with hkx | hkx | hkx
    · simp only [get_r, if_pos hkx, keysList, List.mem_append, List.mem_cons]
      rw [ihl hbl]
      constructor
      · exact fun hm => Or.inl hm
      · rintro (hm | rfl | hm)
        · exact hm
        · exact absurd hkx (lt_irrefl _)
        · exact absurd (hr _ hm) (not_lt.2 (le_of_lt hkx))
    · simp [get_r, hkx, keysList]
    · simp only [get_r, if_neg (not_lt.2 (le_of_lt hkx)), if_neg (ne_of_gt hkx),
        keysList, List.mem_append, List.mem_cons]
      rw [ihr hbr]
      constructor
      · exact fun hm => Or.inr (Or.inr hm)
      · rintro (hm | rfl | hm)
        · exact absurd (hl _ hm) (not_lt.2 (le_of_lt hkx))
        · exact absurd hkx (lt_irrefl _)
        · exact hm

theorem sorted_keysList (t : BTreeKV K V) (h : isBST t) :
    (keysList t).Sorted (· < ·) := by
  induction t with
  | nil => simp [keysList]
  | node x xv xn l r ihl ihr =>
    obtain ⟨hl, hr, hbl, hbr⟩ := h
    simp only [keysList, List.Sorted, List.pairwise_append, List.pairwise_cons]
    refine ⟨ihl hbl, ⟨hr, ihr hbr⟩, ?_⟩
    intro a ha b hb
    rcases List.mem_cons.1 hb with rfl | hb
    · exact hl a ha
    · exact lt_trans (hl a ha) (hr b hb)

theorem put_ne_nil (t : BTreeKV K V) (k : K) (v : V) (c : Nat) :
    (put_r t k v c).1 ≠ .nil := by
  cases t with
  | nil => simp [put_r]
  | node x xv xn l r =>
    rcases lt_trichotomy k x with hkx | hkx | hkx
    · simp [put_r, hkx]
    · subst hkx
      simp [put_r, if_neg (lt_irrefl k)]
    · simp [put_r, if_neg (not_lt.2 (le_of_lt hkx)), if_neg (ne_of_gt hkx)]

theorem realSize_eq_length_keysList (t : BTreeKV K V) :
    realSize t = (keysList t).length := by
  induction t with
  | nil => rfl
  | node x xv xn l r ihl ihr => simp [realSize, keysList, ihl, ihr]; omega

end BTreeKV

namespace BalancedTree

variable {K V : Type} [LinearOrder K]

theorem foldPut_inv (ps : List (K × V)) :
    ∀ s : BalancedTree K V, BTreeKV.isBST s.root → BTreeKV.sizeOk s.root →
      BTreeKV.isBST (ps.foldl (fun s p => s.put p.1 p.2) s).root ∧
      BTreeKV.sizeOk (ps.foldl (fun s p => s.put p.1 p.2) s).root := by
  induction ps with
  | nil => intro s hb hs; exact ⟨hb, hs⟩
  | cons p ps ih =>
    intro s hb hs
    exact ih (s.put p.1 p.2)
      (BTreeKV.isBST_put s.root p.1 p.2 hb s.compares_put)
      (BTreeKV.sizeOk_put s.root p.1 p.2 hs s.compares_put)

theorem isBST_buildPut (ps : List (K × V)) :
    BTreeKV.isBST (buildPut ps).root :=
  (foldPut_inv ps (new K V) trivial trivial).1

theorem sizeOk_buildPut (ps : List (K × V)) :
    BTreeKV.sizeOk (buildPut ps).root :=
  (foldPut_inv ps (new K V) trivial trivial).2

theorem mem_keysList_foldPut (ps : List (K × V)) :
    ∀ (s : BalancedTree K V) (k : K),
      k ∈ BTreeKV.keysList (ps.foldl (fun s p => s.put p.1 p.2) s).root ↔
        k ∈ BTreeKV.keysList s.root ∨ k ∈ ps.map Prod.fst := by
  induction ps with
  | nil => intro s k; simp
  | cons p ps ih =>
    intro s k
    show k ∈ BTreeKV.keysList
        (ps.foldl (fun s p => s.put p.1 p.2) (s.put p.1 p.2)).root ↔ _
    rw [ih (s.put p.1 p.2) k]
    show k ∈ BTreeKV.keysList (BTreeKV.put_r s.root p.1 p.2 s.compares_put).1
        ∨ _ ↔ _
    rw [BTreeKV.mem_keysList_put s.root p.1 k p.2 s.compares_put]
    simp
    tauto

theorem mem_keysList_buildPut (ps : List (K × V)) (k : K) :
    k ∈ BTreeKV.keysList (buildPut ps).root ↔ k ∈ ps.map Prod.fst := by
  rw [buildPut, mem_keysList_foldPut ps (new K V) k]
  simp [new, BTreeKV.keysList]

theorem foldPut_root_ne_nil (ps : List (K × V)) :
    ∀ s : BalancedTree K V, s.root ≠ .nil →
      (ps.foldl (fun s p => s.put p.1 p.2) s).root ≠ .nil := by
  induction ps with
  | nil => intro s hs; exact hs
  | cons p ps ih =>
    intro s _
    exact ih (s.put p.1 p.2)
      (BTreeKV.put_ne_nil s.root p.1 p.2 s.compares_put)

theorem buildPut_cons_root_ne_nil (p : K × V) (ps : List (K × V)) :
    (buildPut (p :: ps)).root ≠ .nil := by
  show (ps.foldl (fun s p => s.put p.1 p.2) ((new K V).put p.1 p.2)).root ≠ .nil
  exact foldPut_root_ne_nil ps _
    (BTreeKV.put_ne_nil (new K V).root p.1 p.2 (new K V).compares_put)

end BalancedTree

namespace BTreeKV

variable {K V : Type} [LinearOrder K]

theorem min_r_spec (t : BTreeKV K V) (h : isBST t) (hne : t ≠ .nil) :
    ∃ m, min_r t = some m ∧ m ∈ keysList t ∧ ∀ k ∈ keysList t, m ≤ k := by
  induction t with
  | nil => exact absurd rfl hne
  | node x xv xn l r ihl ihr =>
    obtain ⟨hl, hr, hbl, hbr⟩ := h
    cases l with
    | nil =>
      refine ⟨x, rfl, by simp [keysList], ?_⟩
      intro k hk
      simp only [keysList, List.nil_append, List.mem_cons] at hk
      rcases hk with rfl | hk
      · exact le_refl k
      · exact le_of_lt (hr k hk)
    | node y yv yn a b =>
      obtain ⟨m, hm, hmem, hmin⟩ := ihl hbl (by simp)
      refine ⟨m, by simpa [min_r] using hm, ?_, ?_⟩
      · show m ∈ keysList (node y yv yn a b) ++ x :: keysList r
        exact List.mem_append_left _ hmem
      · intro k hk
        have hk' : k ∈ keysList (node y yv yn a b) ++ x :: keysList r := hk
        rcases List.mem_append.1 hk' with hk1 | hk1
        · exact hmin k hk1
        · rcases List.mem_cons.1 hk1 with rfl | hk2
          · exact le_of_lt (hl m hmem)
          · exact le_of_lt (lt_trans (hl m hmem) (hr k hk2))

theorem max_r_spec (t : BTreeKV K V) (h : isBST t) (hne : t ≠ .nil) :
    ∃ m, max_r t = some m ∧ m ∈ keysList t ∧ ∀ k ∈ keysList t, k ≤ m := by
  induction t with
  | nil => exact absurd rfl hne
  | node x xv xn l r ihl ihr =>
    obtain ⟨hl, hr, hbl, hbr⟩ := h
    cases r with
    | nil =>
      refine ⟨x, rfl, by simp [keysList], ?_⟩
      intro k hk
      simp only [keysList, List.mem_append, List.mem_cons] at hk
      rcases hk with hk | rfl | hk
      · exact le_of_lt (hl k hk)
      · exact le_refl k
      · simp [keysList] at hk
    | node y yv yn a b =>
      obtain ⟨m, hm, hmem, hmax⟩ := ihr hbr (by simp)
      refine ⟨m, by simpa [max_r] using hm, ?_, ?_⟩
      · show m ∈ keysList l ++ x :: keysList (node y yv yn a b)
        exact List.mem_append_right _ (List.mem_cons_of_mem x hmem)
      · intro k hk
        have hk' : k ∈ keysList l ++ x :: keysList (node y yv yn a b) := hk
        rcases List.mem_append.1 hk' with hk1 | hk1
        · exact le_of_lt (lt_trans (hl k hk1) (hr m hmem))
        · rcases List.mem_cons.1 hk1 with rfl | hk2
          · exact le_of_lt (hr m hmem)
          · exact hmax k hk2

theorem floor_r_some (t : BTreeKV K V) (q : K) :
    ∀ f, floor_r t q = some f → f ∈ keysList t ∧ f ≤ q := by
  induction t with
  | nil => intro f hf; simp [floor_r] at hf
  | node x xv xn l r ihl ihr =>
    intro f hf
    rcases lt_trichotomy q x with hqx | hqx | hqx
    · simp only [floor_r, if_pos hqx] at hf
      obtain ⟨hmem, hle⟩ := ihl f hf
      exact ⟨List.mem_append_left _ hmem, hle⟩
    · subst hqx
      have heq : floor_r (node q xv xn l r) q = some q := by simp [floor_r]
      rw [heq, Option.some_inj] at hf
      subst hf
      exact ⟨List.mem_append_right _ (List.mem_cons_self _ _), le_refl _⟩
    · have h1 : ¬ q < x := not_lt.2 (le_of_lt hqx)
      have h2 : q ≠ x := Ne.symm (ne_of_lt hqx)
      simp only [floor_r, if_neg h1, if_neg h2] at hf
      cases hfr : floor_r r q with
      | some s =>
        rw [hfr, Option.some_inj] at hf
        subst hf
        obtain ⟨hmem, hle⟩ := ihr s hfr
        exact ⟨List.mem_append_right _ (List.mem_cons_of_mem x hmem), hle⟩
      | none =>
        rw [hfr, Option.some_inj] at hf
        subst hf
        exact ⟨List.mem_append_right _ (List.mem_cons_self _ _), le_of_lt hqx⟩

theorem floor_r_ge (t : BTreeKV K V) (q : K) (h : isBST t) :
    ∀ k ∈ keysList t, k ≤ q → ∃ f, floor_r t q = some f ∧ k ≤ f := by
  induction t with
  | nil => intro k hk; simp [keysList] at hk
  | node x xv xn l r ihl ihr =>
    obtain ⟨hl, hr, hbl, hbr⟩ := h
    intro k hk hkq
    have hk' : k ∈ keysList l ++ x :: keysList r := hk
    rcases lt_trichotomy q x with hqx | hqx | hqx
    · simp only [floor_r, if_pos hqx]
      rcases List.mem_append.1 hk' with hk1 | hk1
      · exact ihl hbl k hk1 hkq
      · rcases List.mem_cons.1 hk1 with rfl | hk2
        · exact absurd hqx (not_lt.2 hkq)
        · exact absurd hqx (not_lt.2 (le_trans (le_of_lt (hr k hk2)) hkq))
    · subst hqx
      refine ⟨q, by simp [floor_r], hkq⟩
    · have h1 : ¬ q < x := not_lt.2 (le_of_lt hqx)
      have h2 : q ≠ x := Ne.symm (ne_of_lt hqx)
      simp only [floor_r, if_neg h1, if_neg h2]
      rcases List.mem_append.1 hk' with hk1 | hk1
      · cases hfr : floor_r r q with
        | some s =>
          refine ⟨s, rfl, ?_⟩
          obtain ⟨hmem, _⟩ := floor_r_some r q s hfr
          exact le_of_lt (lt_trans (hl k hk1) (hr s hmem))
        | none => exact ⟨x, rfl, le_of_lt (hl k hk1)⟩
      · rcases List.mem_cons.1 hk1 with rfl | hk2
        · cases hfr : floor_r r q with
          | some s =>
            refine ⟨s, rfl, ?_⟩
            obtain ⟨hmem, _⟩ := floor_r_some r q s hfr
            exact le_of_lt (hr s hmem)
          | none => exact ⟨k, rfl, le_refl k⟩
        · obtain ⟨f, hf, hkf⟩ := ihr hbr k hk2 hkq
          rw [hf]
          exact ⟨f, rfl, hkf⟩

theorem ceiling_r_some (t : BTreeKV K V) (q : K) :
    ∀ f, ceiling_r t q = some f → f ∈ keysList t ∧ q ≤ f := by
  induction t with
  | nil => intro f hf; simp [ceiling_r] at hf
  | node x xv xn l r ihl ihr =>
    intro f hf
    rcases lt_trichotomy q x with hqx | hqx | hqx
    · simp only [ceiling_r, if_pos hqx] at hf
      cases hfl : ceiling_r l q with
      | some s =>
        rw [hfl, Option.some_inj] at hf
        subst hf
        obtain ⟨hmem, hle⟩ := ihl s hfl
        exact ⟨List.mem_append_left _ hmem, hle⟩
      | none =>
        rw [hfl, Option.some_inj] at hf
        subst hf
        exact ⟨List.mem_append_right _ (List.mem_cons_self _ _), le_of_lt hqx⟩
    · subst hqx
      have heq : ceiling_r (node q xv xn l r) q = some q := by simp [ceiling_r]
      rw [heq, Option.some_inj] at hf
      subst hf
      exact ⟨List.mem_append_right _ (List.mem_cons_self _ _), le_refl _⟩
    · have h1 : ¬ q < x := not_lt.2 (le_of_lt hqx)
      have h2 : q ≠ x := Ne.symm (ne_of_lt hqx)
      simp only [ceiling_r, if_neg h1, if_neg h2] at hf
      obtain ⟨hmem, hle⟩ := ihr f hf
      exact ⟨List.mem_append_right _ (List.mem_cons_of_mem x hmem), hle⟩

theorem rank_select_aux (t : BTreeKV K V) (hb : isBST t) (hs : sizeOk t) :
    ∀ k, k < realSize t →
      ∃ x, select_r t k = some x ∧ x ∈ keysList t ∧ rank_r t x = k := by
  induction t with
  | nil => intro k hk; simp [realSize] at hk
  | node x xv xn l r ihl ihr =>
    obtain ⟨hl, hr, hbl, hbr⟩ := hb
    obtain ⟨hn, hsl, hsr⟩ := hs
    intro k hk
    have hLs : _size l = realSize l := _size_eq_realSize l hsl
    have hrs : realSize (node x xv xn l r) = realSize l + realSize r + 1 := rfl
    rcases Nat.lt_trichotomy k (_size l) with hkt | hkt | hkt
    · simp only [select_r, if_neg (Nat.ne_of_lt hkt), if_pos hkt]
      obtain ⟨y, hy, hmem, hrank⟩ := ihl hbl hsl k (by omega)
      refine ⟨y, hy, List.mem_append_left _ hmem, ?_⟩
      show rank_r (node x xv xn l r) y = k
      simp only [rank_r, if_pos (hl y hmem)]
      exact hrank
    · subst hkt
      refine ⟨x, by simp [select_r], ?_, ?_⟩
      · exact List.mem_append_right _ (List.mem_cons_self _ _)
      · simp [rank_r]
    · have h1 : k ≠ _size l := Nat.ne_of_gt hkt
      have h2 : ¬ k < _size l := not_lt.2 (le_of_lt hkt)
      simp only [select_r, if_neg h1, if_neg h2]
      obtain ⟨y, hy, hmem, hrank⟩ := ihr hbr hsr (k - _size l - 1) (by omega)
      refine ⟨y, hy, List.mem_append_right _ (List.mem_cons_of_mem x hmem), ?_⟩
      have hxy : x < y := hr y hmem
      show rank_r (node x xv xn l r) y = k
      simp only [rank_r, if_neg (not_lt.2 (le_of_lt hxy)), if_neg (Ne.symm (ne_of_lt hxy))]
      omega

theorem rank_r_eq_countP (t : BTreeKV K V) (hb : isBST t) (hs : sizeOk t) (q : K) :
    rank_r t q = (keysList t).countP (fun y => decide (y < q)) := by
  induction t with
  | nil => simp [rank_r, keysList]
  | node x xv xn l r ihl ihr =>
    obtain ⟨hl, hr, hbl, hbr⟩ := hb
    obtain ⟨hn, hsl, hsr⟩ := hs
    have hLs : _size l = realSize l := _size_eq_realSize l hsl
    have hsplit : (keysList (node x xv xn l r)).countP (fun y => decide (y < q))
        = (keysList l).countP (fun y => decide (y < q))
          + (x :: keysList r).countP (fun y => decide (y < q)) := by
      show (keysList l ++ x :: keysList r).countP _ = _
      rw [List.countP_append]
    rw [hsplit, List.countP_cons]
    rcases lt_trichotomy q x with hqx | hqx | hqx
    · have hx0 : (decide (x < q) : Bool) = false := by
        simp [not_lt.2 (le_of_lt hqx)]
      have hr0 : (keysList r).countP (fun y => decide (y < q)) = 0 := by
        apply List.countP_eq_zero.2
        intro y hy
        simp [not_lt.2 (le_of_lt (lt_trans hqx (hr y hy)))]
      show rank_r (node x xv xn l r) q = _
      simp only [rank_r, if_pos hqx]
      rw [ihl hbl hsl, hx0, hr0]
      simp
    · subst hqx
      have hr0 : (keysList r).countP (fun y => decide (y < q)) = 0 := by
        apply List.countP_eq_zero.2
        intro y hy
        simp [not_lt.2 (le_of_lt (hr y hy))]
      have hlfull : (keysList l).countP (fun y => decide (y < q))
          = (keysList l).length := by
        apply List.countP_eq_length.2
        intro y hy
        simp [hl y hy]
      show (if q < q then rank_r l q else if q = q then _size l
        else _size l + 1 + rank_r r q) = _
      rw [if_neg (lt_irrefl q), if_pos rfl, hlfull, hr0, hLs,
        realSize_eq_length_keysList]
      simp
    · have hx1 : (decide (x < q) : Bool) = true := by simp [hqx]
      have hlfull : (keysList l).countP (fun y => decide (y < q))
          = (keysList l).length := by
        apply List.countP_eq_length.2
        intro y hy
        simp [lt_trans (hl y hy) hqx]
      show rank_r (node x xv xn l r) q = _
      simp only [rank_r, if_neg (not_lt.2 (le_of_lt hqx)),
        if_neg (Ne.symm (ne_of_lt hqx))]
      rw [ihr hbr hsr, hlfull, hx1, hLs, realSize_eq_length_keysList]
      simp
      omega


theorem ceiling_r_le (t : BTreeKV K V) (q : K) (h : isBST t) :
    ∀ k ∈ keysList t, q ≤ k → ∃ f, ceiling_r t q = some f ∧ f ≤ k := by
  induction t with
  | nil => intro k hk; simp [keysList] at hk
  | node x xv xn l r ihl ihr =>
    obtain ⟨hl, hr, hbl, hbr⟩ := h
    intro k hk hkq
    have hk' : k ∈ keysList l ++ x :: keysList r := hk
    rcases lt_trichotomy q x with hqx | hqx | hqx
    · simp only [ceiling_r, if_pos hqx]
      rcases List.mem_append.1 hk' with hk1 | hk1
      · obtain ⟨f, hf, hkf⟩ := ihl hbl k hk1 hkq
        rw [hf]
        exact ⟨f, rfl, hkf⟩
      · rcases List.mem_cons.1 hk1 with rfl | hk2
        · cases hfl : ceiling_r l q with
          | some s =>
            refine ⟨s, rfl, ?_⟩
            obtain ⟨hmem, _⟩ := ceiling_r_some l q s hfl
            exact le_of_lt (hl s hmem)
          | none => exact ⟨k, rfl, le_refl k⟩
        · cases hfl : ceiling_r l q with
          | some s =>
            refine ⟨s, rfl, ?_⟩
            obtain ⟨hmem, _⟩ := ceiling_r_some l q s hfl
            exact le_of_lt (lt_trans (hl s hmem) (hr k hk2))
          | none => exact ⟨x, rfl, le_of_lt (hr k hk2)⟩
    · subst hqx
      refine ⟨q, by simp [ceiling_r], hkq⟩
    · have h1 : ¬ q < x := not_lt.2 (le_of_lt hqx)
      have h2 : q ≠ x := Ne.symm (ne_of_lt hqx)
      simp only [ceiling_r, if_neg h1, if_neg h2]
      rcases List.mem_append.1 hk' with hk1 | hk1
      · exact absurd hqx (not_lt.2 (le_trans hkq (le_of_lt (hl k hk1))))
      · rcases List.mem_cons.1 hk1 with rfl | hk2
        · exact absurd hqx (not_lt.2 hkq)
        · exact ihr hbr k hk2 hkq

end BTreeKV

theorem BalancedTree.keys_eq_keysList {K V : Type} [LinearOrder K]
    (s : BalancedTree K V) : s.keys = BTreeKV.keysList s.root := by
  show BTreeKV.keys_r s.root [] = _
  rw [BTreeKV.keys_r_eq]
  rfl

theorem BinarySearchTree.showItems_eq_inorder {I : Type} (s : BinarySearchTree I) :
    s.showItems = BTree.inorder s.head := by
  show BTree.show_r s.head [] = _
  rw [BTree.show_r_eq]
  rfl

/-- Claim C1: the spec says every single `rotate_right`/`rotate_left`
application leaves the in-order traversal (`show`) unchanged, but when the
root has no left child `do_rotate_right` returns `None` and `rotate_right`
overwrites the root with it, dropping the whole tree: on the two-node tree
with root 7 and right child 9 the traversal changes from `[7, 9]` to `[]`. -/
theorem C1_rotate_right_changes_inorder_when_left_child_absent :
    BTree.show_r (BTree.rotate_right (BTree.node (7 : ℕ) .nil (.node 9 .nil .nil))) []
      ≠ BTree.show_r (BTree.node (7 : ℕ) .nil (.node 9 .nil .nil)) [] := by
  decide

/-- Claim C2: the spec says `rotate_right` on a root without a left child
(and `rotate_left` without a right child) is a no-op, but the code replaces
the root link with the `None` returned by the rotation helper, emptying the
tree: a single-node tree and a two-node left-chain tree are both destroyed. -/
theorem C2_rotate_on_missing_child_empties_tree :
    BTree.rotate_right (BTree.node (3 : ℕ) .nil .nil) = .nil ∧
    BTree.rotate_left (BTree.node (2 : ℕ) (.node 1 .nil .nil) .nil) = .nil ∧
    BTree.node (2 : ℕ) (.node 1 .nil .nil) .nil ≠ .nil := by
  refine ⟨rfl, rfl, by decide⟩

/-- Claim C3, counterexample: inserting the key 5 twice into the
root-insertion tree produces the in-order key sequence `[5, 5]`, which is
not strictly ascending (`insert_r` sends equal keys right and never
deduplicates), so the claim fails as stated for `insert`-built trees. -/
theorem C3_counterexample_duplicate_inserts :
    ¬ ((BinarySearchTree.buildInsert (fun n : ℕ => n) [5, 5]).showItems.map
        (fun n : ℕ => n)).Sorted (· < ·) := by
  decide

/-- Claim C3 (amended): for every sequence of `put` calls the sized map's
`keys` are strictly ascending; for every sequence of `insert` calls the
root-insertion tree's in-order keys are ascending (non-decreasing), and
strictly ascending when the inserted keys are pairwise distinct. -/
theorem C3_inorder_keys_ascending (K V I α : Type) [LinearOrder K]
    [LinearOrder α] (key : I → α) :
    (∀ ps : List (K × V), (BalancedTree.buildPut ps).keys.Sorted (· < ·)) ∧
    (∀ items : List I,
      ((BinarySearchTree.buildInsert key items).showItems.map key).Sorted (· ≤ ·)) ∧
    (∀ items : List I, (items.map key).Nodup →
      ((BinarySearchTree.buildInsert key items).showItems.map key).Sorted (· < ·)) := by
  refine ⟨?_, ?_, ?_⟩
  · intro ps
    rw [BalancedTree.keys_eq_keysList]
    exact BTreeKV.sorted_keysList _ (BalancedTree.isBST_buildPut ps)
  · intro items
    rw [BinarySearchTree.showItems_eq_inorder]
    exact BTree.searchTree_sorted_le key _
      (BinarySearchTree.searchTree_buildInsert key items)
  · intro items hnd
    rw [BinarySearchTree.showItems_eq_inorder]
    exact BTree.strictSearchTree_sorted_lt key _
      (BinarySearchTree.strictSearchTree_buildInsert key items hnd)

/-- Claim C3, witness: instantiating the amended claim at the insert
sequence `[2, 1, 3]` with distinct keys yields a strictly ascending
in-order key sequence. -/
theorem C3_inorder_keys_ascending_witness :
    ((BinarySearchTree.buildInsert (fun n : ℕ => n) [2, 1, 3]).showItems.map
      (fun n : ℕ => n)).Sorted (· < ·) :=
  (C3_inorder_keys_ascending ℕ ℕ ℕ ℕ (fun n : ℕ => n)).2.2 [2, 1, 3] (by decide)

/-- Claim C4: for every table built by `put` calls and every rank
`k < size()`, `select(k)` returns a key whose `rank` is exactly `k` and
which has exactly `k` strictly-smaller keys in the table; moreover `rank`
always counts the keys strictly below its argument (`select`/`rank`
modelled from the spec, their source bodies being `todo!()`). -/
theorem C4_select_rank_inverse (K V : Type) [LinearOrder K]
    (ps : List (K × V)) (k : Nat)
    (hk : k < (BalancedTree.buildPut ps).size) :
    (∃ x, (BalancedTree.buildPut ps).select k = some x ∧
      (BalancedTree.buildPut ps).rank x = k ∧
      (BTreeKV.keysList (BalancedTree.buildPut ps).root).countP
        (fun y => decide (y < x)) = k) ∧
    (∀ q, (BalancedTree.buildPut ps).rank q =
      (BTreeKV.keysList (BalancedTree.buildPut ps).root).countP
        (fun y => decide (y < q))) := by
  have hb := BalancedTree.isBST_buildPut ps
  have hs := BalancedTree.sizeOk_buildPut ps
  have hk' : k < BTreeKV.realSize (BalancedTree.buildPut ps).root := by
    have hsz : (BalancedTree.buildPut ps).size
        = BTreeKV.realSize (BalancedTree.buildPut ps).root :=
      BTreeKV._size_eq_realSize _ hs
    rw [← hsz]
    exact hk
  constructor
  · obtain ⟨x, hsel, hmem, hrank⟩ :=
      BTreeKV.rank_select_aux (BalancedTree.buildPut ps).root hb hs k hk'
    refine ⟨x, hsel, hrank, ?_⟩
    rw [← BTreeKV.rank_r_eq_countP (BalancedTree.buildPut ps).root hb hs x]
    exact hrank
  · intro q
    exact BTreeKV.rank_r_eq_countP (BalancedTree.buildPut ps).root hb hs q

/-- Claim C4, witness: in the table built from keys 2, 1, 3, rank 1
selects the key 2 and `rank 2 = 1`. -/
theorem C4_select_rank_inverse_witness :
    1 < (BalancedTree.buildPut [((2:ℕ), (0:ℕ)), (1, 0), (3, 0)]).size ∧
    ∃ x, (BalancedTree.buildPut [((2:ℕ), (0:ℕ)), (1, 0), (3, 0)]).select 1 = some x ∧
      (BalancedTree.buildPut [((2:ℕ), (0:ℕ)), (1, 0), (3, 0)]).rank x = 1 := by
  refine ⟨by decide, ?_⟩
  obtain ⟨x, hsel, hrank, _⟩ :=
    (C4_select_rank_inverse ℕ ℕ [((2:ℕ), (0:ℕ)), (1, 0), (3, 0)] 1 (by decide)).1
  exact ⟨x, hsel, hrank⟩

/-- Claim C5: on any tree satisfying the BST ordering invariant,
`insert_at_root(x)` makes `x` the root node, and the in-order sequence
(`show`) becomes the previous in-order sequence with `x` inserted at its
sorted position. -/
theorem C5_insert_at_root_postcondition (I α : Type) [LinearOrder α]
    (key : I → α) (s : BinarySearchTree I) (x : I)
    (h : BTree.SearchTree key s.head) :
    (∃ a b, (s.insert_at_root key x).head = BTree.node x a b) ∧
    (s.insert_at_root key x).showItems
      = BTree.insertIntoSorted key x s.showItems := by
  constructor
  · exact BTree.insert_at_root_r_node key x s.head
  · show BTree.show_r (BTree.insert_at_root_r key x s.head) [] = _
    rw [BTree.show_r_eq, BTree.inorder_insert_at_root_r,
      BTree.inorder_insert_r key x s.head h]
    rw [BinarySearchTree.showItems, BTree.show_r_eq]
    rfl

/-- Claim C5, witness: inserting 4 at the root of the BST with root 5,
left child 3 and right child 9 puts 4 at the root and yields the in-order
sequence with 4 placed at its sorted position. -/
theorem C5_insert_at_root_postcondition_witness :
    BTree.SearchTree (fun n : ℕ => n)
      (BTree.node 5 (BTree.node 3 .nil .nil) (BTree.node 9 .nil .nil)) ∧
    ((⟨BTree.node 5 (BTree.node 3 .nil .nil) (BTree.node 9 .nil .nil), 3⟩ :
        BinarySearchTree ℕ).insert_at_root (fun n : ℕ => n) 4).showItems
      = BTree.insertIntoSorted (fun n : ℕ => n) 4
        (⟨BTree.node 5 (BTree.node 3 .nil .nil) (BTree.node 9 .nil .nil), 3⟩ :
          BinarySearchTree ℕ).showItems := by
  have hst : BTree.SearchTree (fun n : ℕ => n)
      (BTree.node 5 (BTree.node 3 .nil .nil) (BTree.node 9 .nil .nil)) := by
    simp [BTree.SearchTree, BTree.inorder]
  exact ⟨hst,
    (C5_insert_at_root_postcondition ℕ ℕ (fun n : ℕ => n)
      ⟨BTree.node 5 (BTree.node 3 .nil .nil) (BTree.node 9 .nil .nil), 3⟩ 4 hst).2⟩

/-- Claim C6: on every table built by `put` calls, `floor(q) = some f`
implies `f` is a table key, `f ≤ q`, and no table key lies in `(f, q]`
(equivalently every key `≤ q` is `≤ f`); `floor(q) = none` exactly when
every table key exceeds `q`; symmetrically `ceiling(q)` returns the
smallest table key `≥ q`, and `none` exactly when every key is below `q`. -/
theorem C6_floor_ceiling_correct (K V : Type) [LinearOrder K]
    (ps : List (K × V)) (q : K) :
    (∀ f, (BalancedTree.buildPut ps).floor q = some f →
      f ∈ BTreeKV.keysList (BalancedTree.buildPut ps).root ∧ f ≤ q ∧
      ∀ k ∈ BTreeKV.keysList (BalancedTree.buildPut ps).root, k ≤ q → k ≤ f) ∧
    ((BalancedTree.buildPut ps).floor q = none ↔
      ∀ k ∈ BTreeKV.keysList (BalancedTree.buildPut ps).root, q < k) ∧
    (∀ c, (BalancedTree.buildPut ps).ceiling q = some c →
      c ∈ BTreeKV.keysList (BalancedTree.buildPut ps).root ∧ q ≤ c ∧
      ∀ k ∈ BTreeKV.keysList (BalancedTree.buildPut ps).root, q ≤ k → c ≤ k) ∧
    ((BalancedTree.buildPut ps).ceiling q = none ↔
      ∀ k ∈ BTreeKV.keysList (BalancedTree.buildPut ps).root, k < q) := by
  have hb := BalancedTree.isBST_buildPut ps
  refine ⟨?_, ⟨?_, ?_⟩, ?_, ⟨?_, ?_⟩⟩
  · intro f hf
    have hf' : BTreeKV.floor_r (BalancedTree.buildPut ps).root q = some f := hf
    obtain ⟨hmem, hle⟩ := BTreeKV.floor_r_some _ q f hf'
    refine ⟨hmem, hle, ?_⟩
    intro k hk hkq
    obtain ⟨f2, hf2, hkf2⟩ := BTreeKV.floor_r_ge _ q hb k hk hkq
    rw [hf'] at hf2
    rw [Option.some_inj] at hf2
    rw [hf2]
    exact hkf2
  · intro hnone k hk
    have hnone' : BTreeKV.floor_r (BalancedTree.buildPut ps).root q = none := hnone
    by_contra hc
    obtain ⟨f, hf, _⟩ := BTreeKV.floor_r_ge _ q hb k hk (not_lt.1 hc)
    rw [hnone'] at hf
    cases hf
  · intro hall
    cases hf : (BalancedTree.buildPut ps).floor q with
    | none => rfl
    | some f =>
      exfalso
      obtain ⟨hmem, hle⟩ := BTreeKV.floor_r_some _ q f hf
      exact absurd (hall f hmem) (not_lt.2 hle)
  · intro c hc
    have hc' : BTreeKV.ceiling_r (BalancedTree.buildPut ps).root q = some c := hc
    obtain ⟨hmem, hle⟩ := BTreeKV.ceiling_r_some _ q c hc'
    refine ⟨hmem, hle, ?_⟩
    intro k hk hkq
    obtain ⟨c2, hc2, hkc2⟩ := BTreeKV.ceiling_r_le _ q hb k hk hkq
    rw [hc'] at hc2
    rw [Option.some_inj] at hc2
    rw [hc2]
    exact hkc2
  · intro hnone k hk
    have hnone' : BTreeKV.ceiling_r (BalancedTree.buildPut ps).root q = none := hnone
    by_contra hcon
    obtain ⟨c, hcc, _⟩ := BTreeKV.ceiling_r_le _ q hb k hk (not_lt.1 hcon)
    rw [hnone'] at hcc
    cases hcc
  · intro hall
    cases hc : (BalancedTree.buildPut ps).ceiling q with
    | none => rfl
    | some c =>
      exfalso
      obtain ⟨hmem, hle⟩ := BTreeKV.ceiling_r_some _ q c hc
      exact absurd (hall c hmem) (not_lt.2 hle)

/-- Claim C6, witness: with keys 2 and 5 in the table, `floor 3` returns
the key 2, which is in the table and at most 3. -/
theorem C6_floor_ceiling_correct_witness :
    2 ∈ BTreeKV.keysList (BalancedTree.buildPut [((2:ℕ), (0:ℕ)), (5, 0)]).root ∧
    (2:ℕ) ≤ 3 := by
  have h := (C6_floor_ceiling_correct ℕ ℕ [((2:ℕ), (0:ℕ)), (5, 0)] 3).1 2 (by decide)
  exact ⟨h.1, h.2.1⟩

/-- Claim C7: after `put k v1; put k v2` on any table built by `put`
calls, the size equals the size after the first put, `get k` returns
`v2`, and `k` occupies at most one node of the tree. -/
theorem C7_idempotent_update (K V : Type) [LinearOrder K]
    (ps : List (K × V)) (k : K) (v1 v2 : V) :
    (((BalancedTree.buildPut ps).put k v1).put k v2).size
        = ((BalancedTree.buildPut ps).put k v1).size ∧
    (((BalancedTree.buildPut ps).put k v1).put k v2).get k = some v2 ∧
    (BTreeKV.keysList ((((BalancedTree.buildPut ps).put k v1).put k v2)).root).count k
      ≤ 1 := by
  have hb := BalancedTree.isBST_buildPut ps
  have hs := BalancedTree.sizeOk_buildPut ps
  have hb1 : BTreeKV.isBST ((BalancedTree.buildPut ps).put k v1).root :=
    BTreeKV.isBST_put _ k v1 hb _
  have hs1 : BTreeKV.sizeOk ((BalancedTree.buildPut ps).put k v1).root :=
    BTreeKV.sizeOk_put _ k v1 hs _
  have hb2 : BTreeKV.isBST (((BalancedTree.buildPut ps).put k v1).put k v2).root :=
    BTreeKV.isBST_put _ k v2 hb1 _
  have hs2 : BTreeKV.sizeOk (((BalancedTree.buildPut ps).put k v1).put k v2).root :=
    BTreeKV.sizeOk_put _ k v2 hs1 _
  have hget1 : BTreeKV.get_r ((BalancedTree.buildPut ps).put k v1).root k = some v1 :=
    BTreeKV.get_put_same _ k v1 _
  refine ⟨?_, ?_, ?_⟩
  · calc (((BalancedTree.buildPut ps).put k v1).put k v2).size
        = BTreeKV.realSize (((BalancedTree.buildPut ps).put k v1).put k v2).root :=
          BTreeKV._size_eq_realSize _ hs2
      _ = BTreeKV.realSize ((BalancedTree.buildPut ps).put k v1).root :=
          BTreeKV.realSize_put_of_get_some _ k v2 (by rw [hget1]; rfl) _
      _ = ((BalancedTree.buildPut ps).put k v1).size :=
          (BTreeKV._size_eq_realSize _ hs1).symm
  · exact BTreeKV.get_put_same _ k v2 _
  · have hnodup :
        (BTreeKV.keysList ((((BalancedTree.buildPut ps).put k v1).put k v2)).root).Nodup :=
      (BTreeKV.sorted_keysList _ hb2).nodup
    exact List.nodup_iff_count_le_one.1 hnodup k

/-- Claim C8: every table built by `put` calls satisfies the size
invariant (`n = _size left + _size right + 1` at every node), and `size()`
equals the number of distinct keys ever put, 0 for the empty table. -/
theorem C8_size_invariant (K V : Type) [LinearOrder K] (ps : List (K × V)) :
    BTreeKV.sizeOk (BalancedTree.buildPut ps).root ∧
    (BalancedTree.buildPut ps).size = ((ps.map Prod.fst).dedup).length ∧
    (BalancedTree.buildPut ([] : List (K × V))).size = 0 := by
  have hb := BalancedTree.isBST_buildPut ps
  have hs := BalancedTree.sizeOk_buildPut ps
  refine ⟨hs, ?_, rfl⟩
  have hnodup : (BTreeKV.keysList (BalancedTree.buildPut ps).root).Nodup :=
    (BTreeKV.sorted_keysList _ hb).nodup
  have hperm : (BTreeKV.keysList (BalancedTree.buildPut ps).root).Perm
      ((ps.map Prod.fst).dedup) := by
    rw [List.perm_ext_iff_of_nodup hnodup (List.nodup_dedup _)]
    intro a
    rw [List.mem_dedup, BalancedTree.mem_keysList_buildPut]
  calc (BalancedTree.buildPut ps).size
      = BTreeKV.realSize (BalancedTree.buildPut ps).root :=
        BTreeKV._size_eq_realSize _ hs
    _ = (BTreeKV.keysList (BalancedTree.buildPut ps).root).length :=
        BTreeKV.realSize_eq_length_keysList _
    _ = ((ps.map Prod.fst).dedup).length := hperm.length_eq

/-- Claim C9: on every non-empty table built by `put` calls, `min()`
returns the smallest key and `max()` the largest (so the panic branch is
not taken); on the empty table both hit the `panic!` branch, modelled
here as `none`. -/
theorem C9_min_max (K V : Type) [LinearOrder K] (p : K × V) (ps : List (K × V)) :
    (∃ m, (BalancedTree.buildPut (p :: ps)).min = some m ∧
      m ∈ BTreeKV.keysList (BalancedTree.buildPut (p :: ps)).root ∧
      ∀ k ∈ BTreeKV.keysList (BalancedTree.buildPut (p :: ps)).root, m ≤ k) ∧
    (∃ m, (BalancedTree.buildPut (p :: ps)).max = some m ∧
      m ∈ BTreeKV.keysList (BalancedTree.buildPut (p :: ps)).root ∧
      ∀ k ∈ BTreeKV.keysList (BalancedTree.buildPut (p :: ps)).root, k ≤ m) ∧
    (BalancedTree.buildPut ([] : List (K × V))).min = none ∧
    (BalancedTree.buildPut ([] : List (K × V))).max = none := by
  have hb := BalancedTree.isBST_buildPut (p :: ps)
  have hne := BalancedTree.buildPut_cons_root_ne_nil p ps
  exact ⟨BTreeKV.min_r_spec _ hb hne, BTreeKV.max_r_spec _ hb hne, rfl, rfl⟩

/-- Claim C9, witness: instantiating at the put sequence 4, 2, 7 produces
a table whose `min` is its least key. -/
theorem C9_min_max_witness :
    ∃ m, (BalancedTree.buildPut [((4:ℕ), (0:ℕ)), (2, 0), (7, 0)]).min = some m ∧
      m ∈ BTreeKV.keysList (BalancedTree.buildPut [((4:ℕ), (0:ℕ)), (2, 0), (7, 0)]).root ∧
      ∀ k ∈ BTreeKV.keysList (BalancedTree.buildPut [((4:ℕ), (0:ℕ)), (2, 0), (7, 0)]).root,
        m ≤ k :=
  (C9_min_max ℕ ℕ ((4:ℕ), (0:ℕ)) [(2, 0), (7, 0)]).1

/-- Claim C10: `insert_at_root` adds one node but leaves `count`
unchanged, while `insert` increments `count` by one; hence if `count`
matched the number of items before an `insert_at_root` call, it no longer
does afterwards. -/
theorem C10_insert_at_root_desyncs_count (I α : Type) [LinearOrder α]
    (key : I → α) (s : BinarySearchTree I) (x : I) :
    (s.insert_at_root key x).count = s.count ∧
    (BTree.inorder (s.insert_at_root key x).head).length
      = (BTree.inorder s.head).length + 1 ∧
    (s.insert key x).count = s.count + 1 ∧
    (s.count = (BTree.inorder s.head).length →
      (s.insert_at_root key x).count
        ≠ (BTree.inorder (s.insert_at_root key x).head).length) := by
  have hlen : (BTree.inorder (s.insert_at_root key x).head).length
      = (BTree.inorder s.head).length + 1 := by
    show (BTree.inorder (BTree.insert_at_root_r key x s.head)).length = _
    rw [BTree.inorder_insert_at_root_r, BTree.length_inorder_insert_r]
  refine ⟨rfl, hlen, rfl, ?_⟩
  intro hc
  rw [hlen]
  show s.count ≠ _
  omega

/-- Claim C10, witness: after `insert_at_root 5` on the empty tree (where
`count` equalled the item count), `count` no longer equals the number of
items. -/
theorem C10_insert_at_root_desyncs_count_witness :
    ((BinarySearchTree.new ℕ).insert_at_root (fun n : ℕ => n) 5).count ≠
      (BTree.inorder ((BinarySearchTree.new ℕ).insert_at_root
        (fun n : ℕ => n) 5).head).length :=
  (C10_insert_at_root_desyncs_count ℕ ℕ (fun n : ℕ => n)
    (BinarySearchTree.new ℕ) 5).2.2.2 rfl
